import Mathlib

/-!
Verification of the cxxlog logging facility (`src/include/cxxlog/cxxlog.hxx`)
against its natural-language specification.

The header is shallowly embedded: the severity enumeration, the severity-gate
macro, the column formatters, the variadic sink resolution, and the `Logger`
line session (buffer, sink set, column list, lazy render in `operator<<`,
flush in the destructor) become executable Lean definitions.  Output streams
are identified by natural numbers; the `std::ostringstream` formatting state
that this code touches (the saved/restored flags word and the persistent fill
character) is modelled explicitly.  The concurrency of the destructor's
mutex-guarded fan-out write is modelled by an event-trace semantics with an
explicit lock.
-/

namespace cxxlog

/-- Log severity and log level, embedding `enum severity_t`. -/
inductive severity_t : Type
  | none
  | fatal
  | error
  | warning
  | info
  | debug
  | verbose
deriving DecidableEq

/-- The numeric value of each enumerator, as declared in the source
(`none = 0` … `verbose = 6`); C++ compares the enum by this value. -/
def severity_t.toNat : severity_t → Nat
  | .none => 0
  | .fatal => 1
  | .error => 2
  | .warning => 3
  | .info => 4
  | .debug => 5
  | .verbose => 6

/-- The macro `CXXLOG_CHECK(level)`, i.e. `CXXLOG_LEVEL >= level`, with the
static threshold `CXXLOG_LEVEL` passed explicitly. -/
def CXXLOG_CHECK (threshold level : severity_t) : Bool :=
  decide (threshold.toNat ≥ level.toNat)

/-- The transient formatting state of the `std::ostringstream` buffer that this
code can touch: the format-flags word (saved before the column loop and
restored after each column by `buffer_.flags(flags)`) and the fill character
(changed by `std::setfill`, which is *not* part of the flags word).  A fresh
stream has the default flags word and fill `' '`. -/
structure FmtState where
  flags : Nat
  fill : Char
deriving DecidableEq

/-- The formatting state of a freshly constructed `std::ostringstream`. -/
def FmtState.init : FmtState := ⟨0, ' '⟩

/-- A column function (`col::Function`, i.e.
`std::function<void (const arguments &)>`): given the buffer's formatting
state and the line's severity it returns the text it inserts and the
formatting state it leaves behind.  `id` identifies the function so that
invocations can be traced and counted. -/
structure ColFn where
  id : Nat
  run : FmtState → severity_t → String × FmtState

/-- Decimal digits of `n`, most significant first.  `fuel` bounds the
recursion; any `fuel ≥ n` suffices because the argument shrinks by `/ 10`. -/
def decDigits : Nat → Nat → List Char
  | 0, _ => []
  | _ + 1, 0 => []
  | fuel + 1, n + 1 => decDigits fuel ((n + 1) / 10) ++ [Nat.digitChar ((n + 1) % 10)]

/-- Decimal rendering of a natural number, as `operator<<` on an integral
value produces. -/
def decRepr (n : Nat) : String := if n = 0 then "0" else ⟨decDigits n n⟩

/-- Inserting a value under `std::setw w` pads it on the left with the
stream's *current* fill character up to width `w` (streams default to right
adjustment); no padding happens when the text is already at least `w` wide. -/
def padLeft (fill : Char) (w : Nat) (s : String) : String :=
  ⟨List.replicate (w - s.length) fill⟩ ++ s

/-- Column of time (`col::time`).  The wall clock observed at rendering time
is passed in as `usec`, microseconds since the epoch.  The seconds field is
inserted under `setw(10)` with the stream's current fill (the code sets no
fill for it), then `'.'`, then the microseconds under `setw(6)` after
`setfill('0')`; the fill character `'0'` stays set on the stream afterwards
because `setfill` is sticky. -/
def col.time (usec : Nat) : ColFn where
  id := 0
  run := fun st _ =>
    (padLeft st.fill 10 (decRepr (usec / 1000000)) ++ "." ++
      padLeft '0' 6 (decRepr (usec % 1000000)),
      { st with fill := '0' })

/-- The label table of `col::severity` (`severity_string`). -/
def severity_string : severity_t → String
  | .none => "     "
  | .fatal => "FATAL"
  | .error => "ERROR"
  | .warning => "WARN "
  | .info => "INFO "
  | .debug => "DEBUG"
  | .verbose => "VERB "

/-- Column of severity (`col::severity`); it changes no formatting state. -/
def col.severity : ColFn where
  id := 1
  run := fun st sev => (severity_string sev, st)

/-- `detail::add_streams`: push each non-null resolved stream pointer onto the
vector in argument order, keeping duplicates; null arguments (`nullptr`, or a
null `std::ostream*` after `detail::to_ptr`) are skipped silently.  Streams
are identified by numbers; a null argument is `Option.none`. -/
def detail.add_streams : List (Option Nat) → List Nat
  | [] => []
  | Option.some p :: args => p :: detail.add_streams args
  | Option.none :: args => detail.add_streams args

/-- The default sink `&std::cout`. -/
def stdoutSink : Nat := 0

/-- The `Logger` line session: a fixed severity, the `std::ostringstream`
buffer (its accumulated text and its formatting state), the sink set
`streams_`, and the column list `columns_`. -/
structure Logger where
  severity_ : severity_t
  buffer_ : String
  fmt : FmtState
  streams_ : List Nat
  columns_ : List ColFn

/-- The constructor `Logger(severity)`: empty buffer, sink set `{&std::cout}`,
column list `{col::time(), col::severity()}`.  The session is short-lived, so
the single wall-clock reading the time column will make is passed in here as
`usec`. -/
def Logger.init (severity : severity_t) (usec : Nat) : Logger :=
  ⟨severity, "", FmtState.init, [stdoutSink], [col.time usec, col.severity]⟩

/-- The column loop inside `operator<<`: run each column on the buffer,
restore the flags word saved before the loop (`buffer_.flags(flags)` — the
fill character is not part of it and is left as the column set it), then
append one `' '`.  Returns the text appended and the final formatting
state. -/
def renderCols (sev : severity_t) (flags0 : Nat) :
    FmtState → List ColFn → String × FmtState
  | st, [] => ("", st)
  | st, c :: cs =>
    let p := c.run st sev
    let rest := renderCols sev flags0 { p.2 with flags := flags0 } cs
    (p.1 ++ " " ++ rest.1, rest.2)

/-- The individual column outputs of `renderCols`, in rendering order. -/
def renderOuts (sev : severity_t) (flags0 : Nat) :
    FmtState → List ColFn → List String
  | _, [] => []
  | st, c :: cs =>
    let p := c.run st sev
    p.1 :: renderOuts sev flags0 { p.2 with flags := flags0 } cs

/-- The formatting states handed to the successive columns of `renderCols`. -/
def renderStates (sev : severity_t) (flags0 : Nat) :
    FmtState → List ColFn → List FmtState
  | _, [] => []
  | st, c :: cs =>
    let p := c.run st sev
    st :: renderStates sev flags0 { p.2 with flags := flags0 } cs

/-- Concatenation of the given fragments, each followed by exactly one
separator space. -/
def sepCat : List String → String
  | [] => ""
  | s :: rest => s ++ " " ++ sepCat rest

/-- `operator<<(value)`: a no-op when the sink set is empty; otherwise, if the
buffer is still empty (`tellp() == 0`) and the column list is non-empty, first
render the columns, then append the value's text.  Returns the new state and
the list of ids of the column functions invoked by this call. -/
def Logger.insert (l : Logger) (value : String) : Logger × List Nat :=
  if l.streams_.isEmpty then (l, [])
  else if l.buffer_.length == 0 && !l.columns_.isEmpty then
    let p := renderCols l.severity_ l.fmt.flags l.fmt l.columns_
    ({ l with buffer_ := l.buffer_ ++ p.1 ++ value, fmt := p.2 },
      l.columns_.map (·.id))
  else
    ({ l with buffer_ := l.buffer_ ++ value }, [])

/-- `cols(functions...)`: replace the column list, but only while the buffer
is still empty (`tellp() == 0`); otherwise return `*this` unchanged. -/
def Logger.cols (l : Logger) (functions : List ColFn) : Logger :=
  if l.buffer_.length == 0 then { l with columns_ := functions } else l

/-- The variadic `operator()(output_streams...)`: build a fresh vector from
the non-null arguments and swap it in, fully replacing the sink set. -/
def Logger.call (l : Logger) (output_streams : List (Option Nat)) : Logger :=
  { l with streams_ := detail.add_streams output_streams }

/-- The zero-argument overload `operator()()`: returns `*this` unchanged. -/
def Logger.callKeep (l : Logger) : Logger := l

/-- The line terminator `std::endl` appends. -/
def lineTerm : String := "\n"

/-- The destructor `~Logger()`: if the sink set is non-empty and the buffer is
non-empty (`tellp() != 0`), append `std::endl` and write the whole buffered
string to every sink in order; otherwise write nothing.  The result is the
list of performed writes, as (sink, bytes) pairs in order. -/
def Logger.finalize (l : Logger) : List (Nat × String) :=
  if !l.streams_.isEmpty && l.buffer_.length != 0 then
    l.streams_.map fun out => (out, l.buffer_ ++ lineTerm)
  else []

/-- One chained operation on a live line session.  `append eff v` is the
insertion of a content expression whose call-site evaluation has the
observable side effect `eff` and produces the text `v`; the expression is
evaluated (as a C++ function argument) whenever the statement runs, before
`operator<<` does anything. -/
inductive Op : Type
  | sinks (args : List (Option Nat))
  | sinksKeep
  | cols (functions : List ColFn)
  | append (eff : Nat) (value : String)

/-- The result of running a chain of operations on a session: the final
session state, the trace of column-function ids invoked (in order), and the
trace of content-expression side effects evaluated (in order). -/
structure RunResult where
  logger : Logger
  colTrace : List Nat
  effTrace : List Nat

/-- One step of the call chain. -/
def Logger.step (l : Logger) : Op → RunResult
  | .sinks args => ⟨l.call args, [], []⟩
  | .sinksKeep => ⟨l.callKeep, [], []⟩
  | .cols fs => ⟨l.cols fs, [], []⟩
  | .append eff v =>
    let p := l.insert v
    ⟨p.1, p.2, [eff]⟩

/-- Run a whole chain of operations. -/
def Logger.runOps (l : Logger) : List Op → RunResult
  | [] => ⟨l, [], []⟩
  | op :: ops =>
    let r := l.step op
    let r' := r.logger.runOps ops
    ⟨r'.logger, r.colTrace ++ r'.colTrace, r.effTrace ++ r'.effTrace⟩

/-- The observable outcome of one whole log statement: the writes performed at
finalize, the column invocations, and the evaluated content side effects. -/
structure ExecResult where
  writes : List (Nat × String)
  colTrace : List Nat
  effTrace : List Nat
deriving DecidableEq

/-- A whole call-site statement `CXXLOG(severity) (…)…(…) << … << …;`
expanded to `CXXLOG_CHECK(severity) && cxxlog::Logger(severity) …`: when the
gate is false the right-hand side is never evaluated — no `Logger` is
constructed, no operation of the chain runs, and the destructor never fires;
when true, the session is constructed, the chain runs, and the destructor
flushes at end of scope. -/
def execStatement (threshold severity : severity_t) (usec : Nat)
    (ops : List Op) : ExecResult :=
  if CXXLOG_CHECK threshold severity then
    let r := (Logger.init severity usec).runOps ops
    ⟨r.logger.finalize, r.colTrace, r.effTrace⟩
  else ⟨[], [], []⟩

/-- The side effects of all content-append expressions of a chain, in order. -/
def appendEffects : List Op → List Nat
  | [] => []
  | .append eff _ :: ops => eff :: appendEffects ops
  | .sinks _ :: ops => appendEffects ops
  | .sinksKeep :: ops => appendEffects ops
  | .cols _ :: ops => appendEffects ops

/-- Concatenation of a list of strings, in order. -/
def strConcat : List String → String
  | [] => ""
  | s :: rest => s ++ strConcat rest

/-- All bytes a write list sends to sink `s`, concatenated in write order. -/
def sinkTotal (writes : List (Nat × String)) (s : Nat) : String :=
  strConcat (writes.filterMap fun w =>
    if w.1 = s then Option.some w.2 else Option.none)

/-- Modelled from the spec: the reference content append of §4.5, which always
buffers — even when the sink set is empty it still renders the columns on the
first append and appends the value, discarding the buffer only at finalize. -/
def refInsert (l : Logger) (value : String) : Logger × List Nat :=
  if l.buffer_.length == 0 && !l.columns_.isEmpty then
    let p := renderCols l.severity_ l.fmt.flags l.fmt l.columns_
    ({ l with buffer_ := l.buffer_ ++ p.1 ++ value, fmt := p.2 },
      l.columns_.map (·.id))
  else
    ({ l with buffer_ := l.buffer_ ++ value }, [])

/-- One step of the call chain under the reference (always-buffer) append. -/
def refStep (l : Logger) : Op → RunResult
  | .sinks args => ⟨l.call args, [], []⟩
  | .sinksKeep => ⟨l.callKeep, [], []⟩
  | .cols fs => ⟨l.cols fs, [], []⟩
  | .append eff v =>
    let p := refInsert l v
    ⟨p.1, p.2, [eff]⟩

/-- Run a whole chain under the reference (always-buffer) append. -/
def refRunOps (l : Logger) : List Op → RunResult
  | [] => ⟨l, [], []⟩
  | op :: ops =>
    let r := refStep l op
    let r' := refRunOps r.logger ops
    ⟨r'.logger, r.colTrace ++ r'.colTrace, r.effTrace ++ r'.effTrace⟩

/-- Modelled from the spec: the render loop of §4.5 as the spec words it,
resetting the buffer's whole transient formatting state — flags *and* fill —
to the pre-render state `st0` after each formatter. -/
def renderColsReset (sev : severity_t) (st0 : FmtState) :
    FmtState → List ColFn → String × FmtState
  | st, [] => ("", st)
  | st, c :: cs =>
    let p := c.run st sev
    let rest := renderColsReset sev st0 st0 cs
    (p.1 ++ " " ++ rest.1, rest.2)

/-- `true` iff some content append of the chain executes while the session's
sink set is empty, starting from sink set `streams`. -/
def appendsWhileEmpty (streams : List Nat) : List Op → Bool
  | [] => false
  | .sinks args :: ops => appendsWhileEmpty (detail.add_streams args) ops
  | .sinksKeep :: ops => appendsWhileEmpty streams ops
  | .cols _ :: ops => appendsWhileEmpty streams ops
  | .append _ _ :: ops => streams.isEmpty || appendsWhileEmpty streams ops

/-! ### Concurrent finalize

The destructor's fan-out write is
`lock_guard lock(get_mutex()); for (out : streams_) *out << str;` — one
process-wide mutex shared by all sessions, held across the whole multi-sink
write.  An execution of `N` concurrently finalizing sessions is modelled as a
trace of events: thread `t` acquires the lock, writes its line byte by byte to
each of its sinks in order, and releases.  The lock discipline is the only
constraint on interleaving. -/

/-- The flush of one line session: its finished line and its sink set. -/
structure FlushTask where
  line : String
  sinks : List Nat
deriving DecidableEq

/-- An event of a concurrent execution: thread `t` acquires the mutex, writes
one byte `c` to sink `s`, or releases the mutex. -/
inductive Ev : Type
  | acq (t : Nat)
  | wr (t : Nat) (s : Nat) (c : Char)
  | rel (t : Nat)
deriving DecidableEq

/-- The thread an event belongs to. -/
def evThread : Ev → Nat
  | .acq t => t
  | .wr t _ _ => t
  | .rel t => t

/-- Run the mutex over a trace: `acq` needs the lock free, `wr` and `rel`
need the lock held by that same thread.  Returns the final holder, or
`Option.none` on a discipline violation. -/
def lockRun : Option Nat → List Ev → Option (Option Nat)
  | st, [] => Option.some st
  | st, Ev.acq t :: es =>
    match st with
    | Option.none => lockRun (Option.some t) es
    | Option.some _ => Option.none
  | st, Ev.wr t _ _ :: es =>
    if st = Option.some t then lockRun st es else Option.none
  | st, Ev.rel t :: es =>
    if st = Option.some t then lockRun Option.none es else Option.none

/-- The byte-level write events of one flush: the whole line to each sink in
sink-set order. -/
def wrEvents (t : Nat) (task : FlushTask) : List Ev :=
  (task.sinks.map fun s => task.line.toList.map fun c => Ev.wr t s c).flatten

/-- The local event sequence of thread `t` flushing `task`: acquire the
process-wide mutex, perform the whole multi-sink write, release. -/
def taskEvents (t : Nat) (task : FlushTask) : List Ev :=
  Ev.acq t :: (wrEvents t task ++ [Ev.rel t])

/-- The events of thread `i` in a trace, in trace order. -/
def proj (i : Nat) (tr : List Ev) : List Ev :=
  tr.filter fun e => evThread e == i

/-- A complete valid execution of the given flushes: the mutex discipline is
respected from free to free, every event belongs to one of the threads, and
each thread's events, in order, are exactly its flush. -/
def ValidTrace (tasks : List FlushTask) (tr : List Ev) : Prop :=
  lockRun Option.none tr = Option.some Option.none ∧
  (∀ e ∈ tr, evThread e < tasks.length) ∧
  ∀ i ∈ List.range tasks.length, proj i tr = taskEvents i (tasks.getD i ⟨"", []⟩)

/-- The bytes a trace writes to sink `s`, in trace order. -/
def sinkOut (s : Nat) (tr : List Ev) : List Char :=
  tr.filterMap fun e =>
    match e with
    | Ev.wr _ s' c => if s' = s then Option.some c else Option.none
    | _ => Option.none

/-- The bytes one flush contributes to sink `s`: its whole line, once per
occurrence of `s` in its sink set. -/
def contrib (task : FlushTask) (s : Nat) : List Char :=
  ((task.sinks.filter fun x => x == s).map fun _ => task.line.toList).flatten

/-- A custom column that writes `"A"` and leaves the formatting state alone;
used as a concrete override argument. -/
def colA : ColFn := ⟨7, fun st _ => ("A", st)⟩

/-- The rendering invariant tying a session state to the column-invocation
trace accumulated so far: either nothing has rendered and the buffer is still
empty; or nothing has rendered, the buffer is non-empty and the column list is
empty (content was appended with no columns configured, freezing the empty
list); or the columns rendered exactly once — the trace is exactly the ids of
the (now frozen) column list — and the buffer is non-empty. -/
def RenderInv (l : Logger) (tr : List Nat) : Prop :=
  (tr = [] ∧ l.buffer_ = "") ∨
  (tr = [] ∧ l.buffer_ ≠ "" ∧ l.columns_ = []) ∨
  (tr = l.columns_.map (·.id) ∧ l.buffer_ ≠ "" ∧ l.columns_ ≠ [])

/-! ### Basic lemmas about the embedding -/

theorem strLen_zero {s : String} : s.length = 0 ↔ s = "" := by
  cases s with
  | mk data =>
    simp only [String.length_mk, List.length_eq_zero, String.ext_iff]

theorem Logger.insert_of_streams_eq_nil {l : Logger} (h : l.streams_ = [])
    (v : String) : l.insert v = (l, []) := by
  simp [Logger.insert, h]

theorem Logger.insert_render {l : Logger} (h1 : l.streams_ ≠ [])
    (h2 : l.buffer_ = "") (h3 : l.columns_ ≠ []) (v : String) :
    l.insert v =
      ({ l with
          buffer_ := l.buffer_ ++ (renderCols l.severity_ l.fmt.flags l.fmt l.columns_).1 ++ v,
          fmt := (renderCols l.severity_ l.fmt.flags l.fmt l.columns_).2 },
        l.columns_.map (·.id)) := by
  simp [Logger.insert, h1, h2, h3]

theorem Logger.insert_plain {l : Logger} (h1 : l.streams_ ≠ [])
    (h2 : l.buffer_ ≠ "" ∨ l.columns_ = []) (v : String) :
    l.insert v = ({ l with buffer_ := l.buffer_ ++ v }, []) := by
  rcases h2 with h2 | h2
  · have hb : (l.buffer_.length == 0) = false := by
      simp [strLen_zero, h2]
    simp [Logger.insert, h1, hb]
  · simp [Logger.insert, h1, h2]

theorem Logger.streams_insert (l : Logger) (v : String) :
    (l.insert v).1.streams_ = l.streams_ := by
  unfold Logger.insert
  split
  · rfl
  · split <;> rfl

theorem Logger.columns_insert (l : Logger) (v : String) :
    (l.insert v).1.columns_ = l.columns_ := by
  unfold Logger.insert
  split
  · rfl
  · split <;> rfl

theorem Logger.insert_buffer_ext (l : Logger) (v : String) :
    ∃ t, (l.insert v).1.buffer_ = l.buffer_ ++ t := by
  unfold Logger.insert
  split
  · exact ⟨"", by simp⟩
  · split
    · exact ⟨(renderCols l.severity_ l.fmt.flags l.fmt l.columns_).1 ++ v, by
        simp [String.append_assoc]⟩
    · exact ⟨v, rfl⟩

theorem Logger.cols_of_buffer_empty {l : Logger} (h : l.buffer_ = "")
    (fs : List ColFn) : l.cols fs = { l with columns_ := fs } := by
  simp [Logger.cols, h]

theorem Logger.cols_of_buffer_ne {l : Logger} (h : l.buffer_ ≠ "")
    (fs : List ColFn) : l.cols fs = l := by
  have hb : (l.buffer_.length == 0) = false := by simp [strLen_zero, h]
  simp [Logger.cols, hb]

theorem Logger.streams_call (l : Logger) (args : List (Option Nat)) :
    (l.call args).streams_ = detail.add_streams args := rfl

theorem add_streams_eq_filterMap (args : List (Option Nat)) :
    detail.add_streams args = args.filterMap id := by
  induction args with
  | nil => rfl
  | cons a args ih => cases a <;> simp [detail.add_streams, ih]

theorem Logger.finalize_of_streams_eq_nil {l : Logger} (h : l.streams_ = []) :
    l.finalize = [] := by
  simp [Logger.finalize, h]

theorem Logger.finalize_of_buffer_empty {l : Logger} (h : l.buffer_ = "") :
    l.finalize = [] := by
  simp [Logger.finalize, h]

theorem Logger.finalize_eq {l : Logger} (h1 : l.streams_ ≠ [])
    (h2 : l.buffer_ ≠ "") :
    l.finalize = l.streams_.map fun out => (out, l.buffer_ ++ lineTerm) := by
  have hb : l.buffer_.length ≠ 0 := fun hz => h2 (strLen_zero.mp hz)
  simp [Logger.finalize, h1, hb]

theorem Logger.finalize_ne_nil_iff (l : Logger) :
    l.finalize ≠ [] ↔ l.streams_ ≠ [] ∧ l.buffer_ ≠ "" := by
  constructor
  · intro h
    by_cases hs : l.streams_ = []
    · exact absurd (Logger.finalize_of_streams_eq_nil hs) h
    by_cases hb : l.buffer_ = ""
    · exact absurd (Logger.finalize_of_buffer_empty hb) h
    exact ⟨hs, hb⟩
  · rintro ⟨hs, hb⟩
    rw [Logger.finalize_eq hs hb]
    simp [hs]

theorem Logger.runOps_append (l : Logger) (xs ys : List Op) :
    l.runOps (xs ++ ys) =
      ⟨((l.runOps xs).logger.runOps ys).logger,
        (l.runOps xs).colTrace ++ ((l.runOps xs).logger.runOps ys).colTrace,
        (l.runOps xs).effTrace ++ ((l.runOps xs).logger.runOps ys).effTrace⟩ := by
  induction xs generalizing l with
  | nil => simp [Logger.runOps]
  | cons op xs ih => simp [Logger.runOps, ih]

theorem Logger.effTrace_runOps (l : Logger) (ops : List Op) :
    (l.runOps ops).effTrace = appendEffects ops := by
  induction ops generalizing l with
  | nil => rfl
  | cons op ops ih =>
    cases op <;> simp [Logger.runOps, Logger.step, appendEffects, ih]

theorem renderCols_eq_sepCat (sev : severity_t) (flags0 : Nat) (st : FmtState)
    (cs : List ColFn) :
    (renderCols sev flags0 st cs).1 = sepCat (renderOuts sev flags0 st cs) := by
  induction cs generalizing st with
  | nil => rfl
  | cons c cs ih => simp [renderCols, renderOuts, sepCat, ih]

theorem renderOuts_length (sev : severity_t) (flags0 : Nat) (st : FmtState)
    (cs : List ColFn) : (renderOuts sev flags0 st cs).length = cs.length := by
  induction cs generalizing st with
  | nil => rfl
  | cons c cs ih => simp [renderOuts, ih]

theorem renderCols_length (sev : severity_t) (flags0 : Nat) (st : FmtState)
    (cs : List ColFn) : cs.length ≤ (renderCols sev flags0 st cs).1.length := by
  induction cs generalizing st with
  | nil => simp
  | cons c cs ih =>
    simp only [renderCols, List.length_cons, String.length_append]
    have h := ih { flags := flags0, fill := (c.run st sev).2.fill }
    have hsp : (" " : String).length = 1 := rfl
    omega

theorem renderCols_ne_empty (sev : severity_t) (flags0 : Nat) (st : FmtState)
    {cs : List ColFn} (h : cs ≠ []) : (renderCols sev flags0 st cs).1 ≠ "" := by
  intro heq
  have hl := renderCols_length sev flags0 st cs
  rw [heq] at hl
  simp only [String.length_empty, Nat.le_zero] at hl
  exact h (List.length_eq_zero.mp hl)

theorem sinkTotal_map_const (streams : List Nat) (str : String) (s : Nat) :
    sinkTotal (streams.map fun out => (out, str)) s =
      strConcat (List.replicate (List.count s streams) str) := by
  induction streams with
  | nil => rfl
  | cons a streams ih =>
    by_cases h : a = s
    · subst h
      simp [sinkTotal, strConcat, List.count_cons, List.replicate_succ, ← ih]
    · simp [sinkTotal, strConcat, List.count_cons, h, ← ih, Ne.symm h]

theorem count_add_streams (args : List (Option Nat)) (s : Nat) :
    List.count s (detail.add_streams args) = List.count (Option.some s) args := by
  induction args with
  | nil => rfl
  | cons a args ih =>
    cases a with
    | none => simp [detail.add_streams, List.count_cons, ih]
    | some p => simp [detail.add_streams, List.count_cons, ih]

/-! ### The claims -/

/-- C1: for every severity `s`, the gate `CXXLOG_CHECK` returns the boolean
`threshold >= s`; and when the gate is false the macro's `&&` short-circuits,
so the whole statement performs no writes, invokes no column formatter, and
evaluates no content-append expression (no `Logger` is constructed at all:
`execStatement` never touches `Logger.init` in that branch). -/
theorem C1_severity_gate :
    (∀ threshold s : severity_t,
      CXXLOG_CHECK threshold s = true ↔ s.toNat ≤ threshold.toNat) ∧
    ∀ threshold s : severity_t, ∀ usec : Nat, ∀ ops : List Op,
      CXXLOG_CHECK threshold s = false →
        execStatement threshold s usec ops = ⟨[], [], []⟩ := by
  constructor
  · intro t s
    simp [CXXLOG_CHECK, ge_iff_le]
  · intro t s usec ops h
    simp [execStatement, h]

/-- C1 witness: at threshold `error` a `debug` statement gates false and has
no observable effect. -/
theorem C1_severity_gate_witness :
    CXXLOG_CHECK severity_t.error severity_t.debug = false ∧
    execStatement severity_t.error severity_t.debug 0 [Op.append 0 "boom"] =
      ⟨[], [], []⟩ :=
  ⟨by decide,
    C1_severity_gate.2 severity_t.error severity_t.debug 0 [Op.append 0 "boom"]
      (by decide)⟩

/-- C2: the destructor writes nothing when the sink set is empty or the
buffer is empty; otherwise it appends exactly one line terminator to the
buffered line and writes the completed line to every sink, so (for a line
whose payload contains no terminator) each written string ends in exactly one
`'\n'`; and the buffer a first append produces consists of the rendered
columns in list order, each followed by exactly one separator space, with no
separator before the content when the column list is empty. -/
theorem C2_finalize_contract (l : Logger) (v : String) :
    (l.streams_ = [] ∨ l.buffer_ = "" → l.finalize = []) ∧
    (l.streams_ ≠ [] → l.buffer_ ≠ "" →
      l.finalize = l.streams_.map (fun out => (out, l.buffer_ ++ lineTerm)) ∧
      ∀ w ∈ l.finalize, '\n' ∉ l.buffer_.toList →
        ((w.2.toList.filter fun c => c == '\n').length = 1 ∧
          w.2.toList.getLast? = Option.some '\n')) ∧
    (l.buffer_ = "" → l.streams_ ≠ [] →
      (l.columns_ = [] → (l.insert v).1.buffer_ = v) ∧
      (l.columns_ ≠ [] →
        (l.insert v).1.buffer_ =
          sepCat (renderOuts l.severity_ l.fmt.flags l.fmt l.columns_) ++ v ∧
        (renderOuts l.severity_ l.fmt.flags l.fmt l.columns_).length =
          l.columns_.length)) := by
  refine ⟨?_, ?_, ?_⟩
  · rintro (h | h)
    · exact Logger.finalize_of_streams_eq_nil h
    · exact Logger.finalize_of_buffer_empty h
  · intro h1 h2
    refine ⟨Logger.finalize_eq h1 h2, ?_⟩
    intro w hw hnl
    rw [Logger.finalize_eq h1 h2] at hw
    obtain ⟨out, _, rfl⟩ := List.mem_map.mp hw
    have hdata : (l.buffer_ ++ lineTerm).toList = l.buffer_.toList ++ ['\n'] := rfl
    constructor
    · rw [hdata, List.filter_append]
      have : l.buffer_.toList.filter (fun c => c == '\n') = [] := by
        rw [List.filter_eq_nil_iff]
        intro a ha
        simp only [beq_iff_eq]
        intro hna
        exact hnl (hna ▸ ha)
      rw [this]
      rfl
    · rw [hdata]
      exact List.getLast?_concat _
  · intro hb hs
    constructor
    · intro hc
      rw [Logger.insert_plain hs (Or.inr hc) v]
      simp [hb]
    · intro hc
      rw [Logger.insert_render hs hb hc v]
      refine ⟨?_, renderOuts_length _ _ _ _⟩
      show l.buffer_ ++ (renderCols l.severity_ l.fmt.flags l.fmt l.columns_).1 ++ v =
        sepCat (renderOuts l.severity_ l.fmt.flags l.fmt l.columns_) ++ v
      rw [hb, String.empty_append, renderCols_eq_sepCat]

/-- C2 witness: a session with sink `stdout`, buffered payload `"hi"` and no
columns flushes exactly one `'\n'`-terminated line. -/
theorem C2_finalize_contract_witness :
    (Logger.mk severity_t.error "hi" FmtState.init [stdoutSink] []).finalize =
      [(stdoutSink, "hi\n")] := by
  have h :=
    (C2_finalize_contract
      (Logger.mk severity_t.error "hi" FmtState.init [stdoutSink] []) "v").2.1
      (by decide) (by decide)
  exact h.1

/-- C6: the zero-argument sink override keeps the sink set unchanged; an
explicit argument list fully replaces the sink set with the non-null resolved
references (nulls dropped silently, no error), the last call winning
regardless of earlier overrides; the side effects of every content-append
expression of the chain are evaluated no matter what the sink set is; and
with an empty effective sink set the finalize writes nothing. -/
theorem C6_sink_override (l : Logger) (sev : severity_t) (usec : Nat)
    (ops : List Op) (args : List (Option Nat)) :
    l.callKeep = l ∧
    (l.call args).streams_ = args.filterMap id ∧
    ((Logger.init sev usec).runOps (ops ++ [Op.sinks args])).logger.streams_ =
      detail.add_streams args ∧
    ((Logger.init sev usec).runOps ops).effTrace = appendEffects ops ∧
    (((Logger.init sev usec).runOps ops).logger.streams_ = [] →
      ((Logger.init sev usec).runOps ops).logger.finalize = []) := by
  refine ⟨rfl, (Logger.streams_call l args).trans (add_streams_eq_filterMap args),
    ?_, Logger.effTrace_runOps _ ops,
    fun h => Logger.finalize_of_streams_eq_nil h⟩
  rw [Logger.runOps_append]
  rfl

/-- C6 witness: a chain that clears the sinks and appends `"x"` (effect `7`)
still evaluates the append's side effect, and finalize writes nothing. -/
theorem C6_sink_override_witness :
    ((Logger.init severity_t.error 0).runOps
        [Op.sinks [], Op.append 7 "x"]).effTrace = [7] ∧
    ((Logger.init severity_t.error 0).runOps
        [Op.sinks [], Op.append 7 "x"]).logger.finalize = [] := by
  have h := C6_sink_override (Logger.init severity_t.error 0) severity_t.error 0
    [Op.sinks [], Op.append 7 "x"] []
  exact ⟨h.2.2.2.1, h.2.2.2.2 (by decide)⟩

/-- C10: the sink collection is an ordered list preserving argument order and
duplicates of the non-null supplied references (per-sink multiplicity is the
multiplicity among the arguments, not a deduplicated set), and finalize
writes the completed line once per list entry — a sink listed twice receives
the line twice. -/
theorem C10_duplicate_sinks (args : List (Option Nat)) (l : Logger) (s : Nat) :
    detail.add_streams args = args.filterMap id ∧
    List.count s (detail.add_streams args) = List.count (Option.some s) args ∧
    (l.streams_ ≠ [] → l.buffer_ ≠ "" →
      l.finalize.length = l.streams_.length ∧
      sinkTotal l.finalize s =
        strConcat (List.replicate (List.count s l.streams_)
          (l.buffer_ ++ lineTerm))) := by
  refine ⟨add_streams_eq_filterMap args, count_add_streams args s, ?_⟩
  intro h1 h2
  rw [Logger.finalize_eq h1 h2]
  exact ⟨List.length_map _ _, sinkTotal_map_const _ _ _⟩

theorem str_append_ne_left {s : String} (t : String) (h : s ≠ "") :
    s ++ t ≠ "" := by
  intro he
  have hl := congrArg String.length he
  rw [String.length_append, String.length_empty] at hl
  exact h (strLen_zero.mp (by omega))

theorem str_append_ne_right (s : String) {t : String} (h : t ≠ "") :
    s ++ t ≠ "" := by
  intro he
  have hl := congrArg String.length he
  rw [String.length_append, String.length_empty] at hl
  exact h (strLen_zero.mp (by omega))

theorem step_renderInv (l : Logger) (tr : List Nat) (op : Op)
    (h : RenderInv l tr) :
    RenderInv (l.step op).logger (tr ++ (l.step op).colTrace) := by
  cases op with
  | sinks args =>
    simpa [Logger.step, Logger.call, RenderInv] using h
  | sinksKeep =>
    simpa [Logger.step, Logger.callKeep, RenderInv] using h
  | cols fs =>
    by_cases hb : l.buffer_ = ""
    · rcases h with ⟨ht, _⟩ | ⟨_, hne, _⟩ | ⟨_, hne, _⟩
      · exact Or.inl ⟨by simpa [Logger.step] using ht,
          by simp [Logger.step, Logger.cols_of_buffer_empty hb, hb]⟩
      · exact absurd hb hne
      · exact absurd hb hne
    · simpa [Logger.step, Logger.cols_of_buffer_ne hb, RenderInv] using h
  | append eff v =>
    by_cases hs : l.streams_ = []
    · simpa [Logger.step, Logger.insert_of_streams_eq_nil hs, RenderInv] using h
    rcases h with ⟨ht, hb⟩ | ⟨ht, hb, hc⟩ | ⟨ht, hb, hc⟩
    · by_cases hc : l.columns_ = []
      · rw [ht]
        by_cases hv : v = ""
        · refine Or.inl ⟨?_, ?_⟩ <;>
            simp [Logger.step, Logger.insert_plain hs (Or.inr hc), hb, hv]
        · refine Or.inr (Or.inl ⟨?_, ?_, ?_⟩) <;>
            simp [Logger.step, Logger.insert_plain hs (Or.inr hc), hb, hv, hc]
      · rw [ht]
        refine Or.inr (Or.inr ⟨?_, ?_, ?_⟩)
        · simp [Logger.step, Logger.insert_render hs hb hc]
        · have hpre := renderCols_ne_empty l.severity_ l.fmt.flags l.fmt hc
          simp only [Logger.step, Logger.insert_render hs hb hc]
          exact str_append_ne_left _ (str_append_ne_right _ hpre)
        · simpa [Logger.step, Logger.insert_render hs hb hc] using hc
    · rw [ht]
      refine Or.inr (Or.inl ⟨?_, ?_, ?_⟩)
      · simp [Logger.step, Logger.insert_plain hs (Or.inr hc)]
      · simp only [Logger.step, Logger.insert_plain hs (Or.inr hc)]
        exact str_append_ne_left _ hb
      · simpa [Logger.step, Logger.insert_plain hs (Or.inr hc)] using hc
    · refine Or.inr (Or.inr ⟨?_, ?_, ?_⟩)
      · rw [ht]
        simp [Logger.step, Logger.insert_plain hs (Or.inl hb)]
      · simp only [Logger.step, Logger.insert_plain hs (Or.inl hb)]
        exact str_append_ne_left _ hb
      · simpa [Logger.step, Logger.insert_plain hs (Or.inl hb)] using hc

theorem runOps_renderInv (l : Logger) (ops : List Op) (tr : List Nat)
    (h : RenderInv l tr) :
    RenderInv ((l.runOps ops).logger) (tr ++ (l.runOps ops).colTrace) := by
  induction ops generalizing l tr with
  | nil => simpa [Logger.runOps] using h
  | cons op ops ih =>
    have hstep := step_renderInv l tr op h
    have hrec := ih (l.step op).logger (tr ++ (l.step op).colTrace) hstep
    simpa [Logger.runOps, List.append_assoc] using hrec

theorem runOps_no_append_colTrace (l : Logger) (ops : List Op)
    (h : ∀ eff v, Op.append eff v ∉ ops) : (l.runOps ops).colTrace = [] := by
  induction ops generalizing l with
  | nil => rfl
  | cons op ops ih =>
    have hrest : ∀ eff v, Op.append eff v ∉ ops := fun eff v hm =>
      h eff v (List.mem_cons_of_mem _ hm)
    cases op with
    | sinks args => simp [Logger.runOps, Logger.step, ih _ hrest]
    | sinksKeep => simp [Logger.runOps, Logger.step, ih _ hrest]
    | cols fs => simp [Logger.runOps, Logger.step, ih _ hrest]
    | append eff v => exact absurd (List.mem_cons_self _ _) (h eff v)

/-- C3 counterexample: in the chain
`sinks [] ; << "x" ; sinks [stdout] ; << "y"` the *first* content append
triggers no column rendering at all (the sink set is empty, so `operator<<`
skips everything and the trace after the first two operations is empty); the
session then renders at the *second* append — the full run's trace is the
default columns' ids.  This refutes "rendering is triggered by the first
content append" as stated. -/
theorem C3_counterexample :
    ((Logger.init severity_t.error 0).runOps
        [Op.sinks [], Op.append 0 "x"]).colTrace = [] ∧
    ((Logger.init severity_t.error 0).runOps
        [Op.sinks [], Op.append 0 "x", Op.sinks [Option.some stdoutSink],
          Op.append 1 "y"]).colTrace = [0, 1] := by
  constructor
  · decide
  · decide

/-- C3 amended: column rendering happens at most once over a session's whole
lifetime — the invocation trace is empty or exactly the column list's ids,
each once — it happens only at a content append executed while the sink set
is non-empty (in particular never at construction, never at finalize, and a
chain with no append has an empty trace), and whenever finalize writes a
line, every formatter of the session's column list was invoked exactly
once. -/
theorem C3_render_once (sev : severity_t) (usec : Nat) (ops : List Op) :
    (((Logger.init sev usec).runOps ops).colTrace = [] ∨
      ((Logger.init sev usec).runOps ops).colTrace =
        ((Logger.init sev usec).runOps ops).logger.columns_.map (·.id)) ∧
    ((∀ eff v, Op.append eff v ∉ ops) →
      ((Logger.init sev usec).runOps ops).colTrace = []) ∧
    (((Logger.init sev usec).runOps ops).logger.finalize ≠ [] →
      ((Logger.init sev usec).runOps ops).colTrace =
        ((Logger.init sev usec).runOps ops).logger.columns_.map (·.id)) := by
  have hinv := runOps_renderInv (Logger.init sev usec) ops []
    (Or.inl ⟨rfl, rfl⟩)
  rw [List.nil_append] at hinv
  refine ⟨?_, runOps_no_append_colTrace _ ops, ?_⟩
  · rcases hinv with ⟨ht, _⟩ | ⟨ht, _, _⟩ | ⟨ht, _, _⟩
    · exact Or.inl ht
    · exact Or.inl ht
    · exact Or.inr ht
  · intro hfin
    obtain ⟨_, hbuf⟩ := (Logger.finalize_ne_nil_iff _).mp hfin
    rcases hinv with ⟨_, hb⟩ | ⟨ht, _, hc⟩ | ⟨ht, _, _⟩
    · exact absurd hb hbuf
    · rw [ht, hc]
      rfl
    · exact ht

/-- C3 witness: a plain `error` statement with one append renders both
default columns exactly once and finalize writes the line. -/
theorem C3_render_once_witness :
    ((Logger.init severity_t.error 0).runOps [Op.append 0 "x"]).colTrace =
      ((Logger.init severity_t.error 0).runOps
        [Op.append 0 "x"]).logger.columns_.map (·.id) :=
  (C3_render_once severity_t.error 0 [Op.append 0 "x"]).2.2 (by decide)

/-- C5 counterexample: in the chain
`sinks [] ; << "x" ; sinks [stdout] ; cols [colA] ; << "y"` the column
override happens *after* a content append, yet it is not a no-op: the column
list (default ids `[0, 1]` up to that point) becomes `[7]`, and the finalized
line is rendered with the overridden column.  The code guards `cols` on the
buffer being empty, not on an append having happened, and an append made
while the sink set is empty leaves the buffer empty. -/
theorem C5_counterexample :
    (((Logger.init severity_t.error 0).runOps
        [Op.sinks [], Op.append 0 "x"]).logger.columns_.map (·.id)) = [0, 1] ∧
    (((Logger.init severity_t.error 0).runOps
        [Op.sinks [], Op.append 0 "x", Op.sinks [Option.some stdoutSink],
          Op.cols [colA], Op.append 1 "y"]).logger.columns_.map (·.id)) = [7] ∧
    ((Logger.init severity_t.error 0).runOps
        [Op.sinks [], Op.append 0 "x", Op.sinks [Option.some stdoutSink],
          Op.cols [colA], Op.append 1 "y"]).logger.finalize =
      [(stdoutSink, "A y\n")] := by
  refine ⟨by decide, by decide, by decide⟩

/-- C5 amended: a column override performed while the session's buffer is
still empty — which includes the state after appends that wrote nothing
because the sink set was empty — replaces the full column list (an empty list
meaning no column prefix) and leaves the buffer unchanged; a column override
performed while the buffer is non-empty is a silent no-op: the whole rest of
the run (column list, buffer, traces, and all subsequent appends) is exactly
as if the override had not been written. -/
theorem C5_cols_override (sev : severity_t) (usec : Nat) (ops₁ ops₂ : List Op)
    (fs : List ColFn) :
    (((Logger.init sev usec).runOps ops₁).logger.buffer_ ≠ "" →
      (Logger.init sev usec).runOps (ops₁ ++ Op.cols fs :: ops₂) =
        (Logger.init sev usec).runOps (ops₁ ++ ops₂)) ∧
    (((Logger.init sev usec).runOps ops₁).logger.buffer_ = "" →
      ((Logger.init sev usec).runOps (ops₁ ++ [Op.cols fs])).logger.columns_ =
        fs ∧
      ((Logger.init sev usec).runOps (ops₁ ++ [Op.cols fs])).logger.buffer_ =
        ((Logger.init sev usec).runOps ops₁).logger.buffer_) := by
  constructor
  · intro h
    have hcols := Logger.cols_of_buffer_ne h fs
    rw [Logger.runOps_append, Logger.runOps_append]
    simp [Logger.runOps, Logger.step, hcols]
  · intro h
    have hcols := Logger.cols_of_buffer_empty h fs
    rw [Logger.runOps_append]
    constructor
    · simp [Logger.runOps, Logger.step, hcols]
    · simp [Logger.runOps, Logger.step, hcols, h]

/-- C5 witness: after a real append (buffer non-empty) a `cols` override
leaves the whole remaining run unchanged. -/
theorem C5_cols_override_witness :
    (Logger.init severity_t.error 0).runOps
        ([Op.append 0 "x"] ++ Op.cols [] :: [Op.append 1 "y"]) =
      (Logger.init severity_t.error 0).runOps
        ([Op.append 0 "x"] ++ [Op.append 1 "y"]) :=
  (C5_cols_override severity_t.error 0 [Op.append 0 "x"] [Op.append 1 "y"]
    []).1 (by decide)

theorem refInsert_streams (l : Logger) (v : String) :
    (refInsert l v).1.streams_ = l.streams_ := by
  unfold refInsert
  split <;> rfl

theorem insert_eq_refInsert {l : Logger} (h : l.streams_ ≠ []) (v : String) :
    l.insert v = refInsert l v := by
  have hs : l.streams_.isEmpty = false := by simp [h]
  simp [Logger.insert, refInsert, hs]

theorem cols_streams (l : Logger) (fs : List ColFn) :
    (l.cols fs).streams_ = l.streams_ := by
  unfold Logger.cols
  split <;> rfl

theorem runOps_eq_refRunOps (l : Logger) (ops : List Op)
    (h : appendsWhileEmpty l.streams_ ops = false) :
    l.runOps ops = refRunOps l ops := by
  induction ops generalizing l with
  | nil => rfl
  | cons op ops ih =>
    cases op with
    | sinks args =>
      have h' : appendsWhileEmpty (l.call args).streams_ ops = false := by
        simpa [appendsWhileEmpty, Logger.streams_call] using h
      simp [Logger.runOps, refRunOps, Logger.step, refStep, ih _ h']
    | sinksKeep =>
      have h' : appendsWhileEmpty l.callKeep.streams_ ops = false := by
        simpa [appendsWhileEmpty, Logger.callKeep] using h
      simp [Logger.runOps, refRunOps, Logger.step, refStep, ih _ h']
    | cols fs =>
      have h' : appendsWhileEmpty (l.cols fs).streams_ ops = false := by
        rw [cols_streams]
        simpa [appendsWhileEmpty] using h
      simp [Logger.runOps, refRunOps, Logger.step, refStep, ih _ h']
    | append eff v =>
      rw [appendsWhileEmpty] at h
      have hboth := Bool.or_eq_false_iff.mp h
      have hne : l.streams_ ≠ [] := by
        intro hnil
        rw [hnil] at hboth
        exact absurd hboth.1 (by simp)
      have h' : appendsWhileEmpty (refInsert l v).1.streams_ ops = false := by
        rw [refInsert_streams]
        exact hboth.2
      simp [Logger.runOps, refRunOps, Logger.step, refStep,
        insert_eq_refInsert hne, ih _ h']

/-- C7 counterexample: in the chain
`sinks [] ; << "x" ; sinks [stdout]` the code's skip-buffering append differs
observably from the always-buffer reference of the spec: the code writes
nothing at finalize and invokes no column formatter, while the reference
renders the columns at the append and writes the buffered line to the
restored sink. -/
theorem C7_counterexample :
    ((Logger.init severity_t.error 0).runOps
        [Op.sinks [], Op.append 0 "x",
          Op.sinks [Option.some stdoutSink]]).logger.finalize = [] ∧
    (refRunOps (Logger.init severity_t.error 0)
        [Op.sinks [], Op.append 0 "x",
          Op.sinks [Option.some stdoutSink]]).logger.finalize =
      [(stdoutSink, "         0.000000 ERROR x\n")] ∧
    ((Logger.init severity_t.error 0).runOps
        [Op.sinks [], Op.append 0 "x",
          Op.sinks [Option.some stdoutSink]]).colTrace = [] ∧
    (refRunOps (Logger.init severity_t.error 0)
        [Op.sinks [], Op.append 0 "x",
          Op.sinks [Option.some stdoutSink]]).colTrace = [0, 1] :=
  ⟨by decide, by decide, by decide, by decide⟩

/-- C7 amended: skipping buffering (and column rendering) while the sink set
is empty is observationally equivalent to the always-buffer reference — same
session state, same finalize writes to every sink, and identical
column-formatter invocations — for every chain in which no content append
executes while the sink set is empty.  (When such an append exists the two
implementations can differ, per the counterexample: the buffered content and
the formatter invocations of that append are lost, even if a later sink
override makes the sink set non-empty before finalize.) -/
theorem C7_skip_buffering (l : Logger) (ops : List Op)
    (h : appendsWhileEmpty l.streams_ ops = false) :
    l.runOps ops = refRunOps l ops ∧
    (l.runOps ops).logger.finalize = (refRunOps l ops).logger.finalize ∧
    (l.runOps ops).colTrace = (refRunOps l ops).colTrace := by
  have heq := runOps_eq_refRunOps l ops h
  exact ⟨heq, by rw [heq], by rw [heq]⟩

/-- C7 witness: a default chain that appends once with the default sink never
appends while the sink set is empty, and both implementations agree on it. -/
theorem C7_skip_buffering_witness :
    (Logger.init severity_t.error 0).runOps [Op.append 0 "x"] =
      refRunOps (Logger.init severity_t.error 0) [Op.append 0 "x"] :=
  (C7_skip_buffering (Logger.init severity_t.error 0) [Op.append 0 "x"]
    (by decide)).1

theorem renderStates_flags (sev : severity_t) (flags0 : Nat) (st : FmtState)
    (hst : st.flags = flags0) (cs : List ColFn) :
    ∀ x ∈ renderStates sev flags0 st cs, x.flags = flags0 := by
  induction cs generalizing st with
  | nil =>
    intro x hx
    simp [renderStates] at hx
  | cons c cs ih =>
    intro x hx
    simp only [renderStates, List.mem_cons] at hx
    rcases hx with rfl | hx
    · exact hst
    · exact ih _ rfl x hx

theorem renderCols_final_flags (sev : severity_t) (flags0 : Nat)
    (st : FmtState) (hst : st.flags = flags0) (cs : List ColFn) :
    (renderCols sev flags0 st cs).2.flags = flags0 := by
  induction cs generalizing st with
  | nil => simpa [renderCols] using hst
  | cons c cs ih =>
    simp only [renderCols]
    exact ih _ rfl

/-- C8 counterexample: with the column list `[col::time, col::time]` the
second formatter receives fill `'0'` (left behind by the first one's
`setfill('0')`), not the pre-render fill `' '`: the code resets only the
flags word between formatters, and the fill character is not part of it.
Observably, the second time column comes out zero-padded while the full-reset
rendering of the spec leaves it space-padded. -/
theorem C8_counterexample :
    (renderStates severity_t.error FmtState.init.flags FmtState.init
        [col.time 0, col.time 0]).map FmtState.fill = [' ', '0'] ∧
    (renderCols severity_t.error FmtState.init.flags FmtState.init
        [col.time 0, col.time 0]).1 =
      "         0.000000 0000000000.000000 " ∧
    (renderCols severity_t.error FmtState.init.flags FmtState.init
        [col.time 0, col.time 0]).1 ≠
      (renderColsReset severity_t.error FmtState.init FmtState.init
        [col.time 0, col.time 0]).1 :=
  ⟨by decide, by decide, by decide⟩

/-- C8 amended: between formatters the render loop restores exactly the
*flags word* saved before rendering began — every formatter is invoked with
the pre-render flags, and the final state carries them too — but the fill
character is not restored and may leak from one formatter to the next (per
the counterexample). -/
theorem C8_flags_reset (sev : severity_t) (st0 : FmtState) (cs : List ColFn) :
    (∀ st ∈ renderStates sev st0.flags st0 cs, st.flags = st0.flags) ∧
    (renderCols sev st0.flags st0 cs).2.flags = st0.flags :=
  ⟨renderStates_flags sev st0.flags st0 rfl cs,
    renderCols_final_flags sev st0.flags st0 rfl cs⟩

/-- C8 witness: in the `[time, time]` render the state handed to the second
formatter still carries the pre-render flags word (though its fill leaked). -/
theorem C8_flags_reset_witness :
    (⟨FmtState.init.flags, '0'⟩ : FmtState).flags = FmtState.init.flags :=
  (C8_flags_reset severity_t.error FmtState.init [col.time 0, col.time 0]).1
    ⟨FmtState.init.flags, '0'⟩ (by decide)

theorem digitChar_isDigit (d : Nat) (hd : d < 10) :
    (Nat.digitChar d).isDigit = true := by
  interval_cases d <;> decide

theorem decDigits_zero (fuel : Nat) : decDigits fuel 0 = [] := by
  cases fuel <;> rfl

theorem decDigits_all_digit (fuel n : Nat) :
    ∀ c ∈ decDigits fuel n, c.isDigit = true := by
  induction fuel generalizing n with
  | zero =>
    intro c hc
    simp [decDigits] at hc
  | succ fuel ih =>
    intro c hc
    cases n with
    | zero => simp [decDigits] at hc
    | succ m =>
      simp only [decDigits, List.mem_append, List.mem_singleton] at hc
      rcases hc with hc | rfl
      · exact ih _ c hc
      · exact digitChar_isDigit _ (Nat.mod_lt _ (by omega))

theorem decDigits_length_le (fuel n k : Nat) (h : n < 10 ^ k) :
    (decDigits fuel n).length ≤ k := by
  induction fuel generalizing n k with
  | zero => simp [decDigits]
  | succ fuel ih =>
    cases n with
    | zero => simp [decDigits]
    | succ m =>
      cases k with
      | zero =>
        have := pow_zero 10
        omega
      | succ j =>
        have hdiv : (m + 1) / 10 < 10 ^ j := by
          rw [Nat.div_lt_iff_lt_mul (by omega : 0 < 10)]
          calc m + 1 < 10 ^ (j + 1) := h
          _ = 10 ^ j * 10 := pow_succ 10 j
        have hrec := ih ((m + 1) / 10) j hdiv
        simp only [decDigits, List.length_append, List.length_singleton]
        omega

theorem decDigits_length_eq (fuel n k : Nat) (hfuel : n ≤ fuel)
    (hlo : 10 ^ k ≤ n) (hhi : n < 10 ^ (k + 1)) :
    (decDigits fuel n).length = k + 1 := by
  induction fuel generalizing n k with
  | zero =>
    have := pow_pos (by omega : 0 < 10) k
    omega
  | succ fuel ih =>
    cases n with
    | zero =>
      have := pow_pos (by omega : 0 < 10) k
      omega
    | succ m =>
      cases k with
      | zero =>
        have hdiv : (m + 1) / 10 = 0 := Nat.div_eq_of_lt (by simpa using hhi)
        simp [decDigits, hdiv, decDigits_zero]
      | succ j =>
        have hlo' : 10 ^ j ≤ (m + 1) / 10 := by
          rw [Nat.le_div_iff_mul_le (by omega : 0 < 10)]
          calc 10 ^ j * 10 = 10 ^ (j + 1) := (pow_succ 10 j).symm
          _ ≤ m + 1 := hlo
        have hhi' : (m + 1) / 10 < 10 ^ (j + 1) := by
          rw [Nat.div_lt_iff_lt_mul (by omega : 0 < 10)]
          calc m + 1 < 10 ^ (j + 1 + 1) := hhi
          _ = 10 ^ (j + 1) * 10 := pow_succ 10 (j + 1)
        have hfuel' : (m + 1) / 10 ≤ fuel := by
          have hd : (m + 1) / 10 < m + 1 := Nat.div_lt_self (by omega) (by omega)
          omega
        simp only [decDigits, List.length_append, List.length_singleton]
        rw [ih _ _ hfuel' hlo' hhi']

theorem decRepr_length_eq {n k : Nat} (hlo : 10 ^ k ≤ n)
    (hhi : n < 10 ^ (k + 1)) : (decRepr n).length = k + 1 := by
  have hn : n ≠ 0 := by
    intro h
    subst h
    have := pow_pos (by omega : 0 < 10) k
    omega
  unfold decRepr
  rw [if_neg hn]
  simpa using decDigits_length_eq n n k le_rfl hlo hhi

theorem decRepr_length_le {n k : Nat} (h : n < 10 ^ k) (hk : 1 ≤ k) :
    (decRepr n).length ≤ k := by
  by_cases hn : n = 0
  · subst hn
    simpa [decRepr] using hk
  · unfold decRepr
    rw [if_neg hn]
    simpa using decDigits_length_le n n k h

theorem decRepr_all_digit (n : Nat) :
    ∀ c ∈ (decRepr n).toList, c.isDigit = true := by
  by_cases hn : n = 0
  · subst hn
    intro c hc
    simp [decRepr] at hc
    subst hc
    decide
  · unfold decRepr
    rw [if_neg hn]
    intro c hc
    exact decDigits_all_digit n n c hc

theorem padLeft_length (fill : Char) (w : Nat) (s : String) :
    (padLeft fill w s).length = max w s.length := by
  simp only [padLeft, String.length_append, String.length_mk,
    List.length_replicate]
  omega

theorem padLeft_eq_self {fill : Char} {w : Nat} {s : String}
    (h : w ≤ s.length) : padLeft fill w s = s := by
  unfold padLeft
  rw [Nat.sub_eq_zero_of_le h]
  rfl

theorem padLeft_all_digit {fill : Char} (hf : fill.isDigit = true) (w : Nat)
    {s : String} (hs : ∀ c ∈ s.toList, c.isDigit = true) :
    ∀ c ∈ (padLeft fill w s).toList, c.isDigit = true := by
  intro c hc
  have hsplit : (padLeft fill w s).toList =
      List.replicate (w - s.length) fill ++ s.toList := rfl
  rw [hsplit, List.mem_append] at hc
  rcases hc with hc | hc
  · rw [List.eq_of_mem_replicate hc]
    exact hf
  · exact hs c hc

/-- C9 counterexample: at wall-clock zero the time column emits
`"         0.000000"` — the seconds field is *space*-padded under `setw(10)`
(the code applies `setfill('0')` only after inserting the seconds), so the
output does not consist of 10 digits and differs from the zero-padded form
the claim asserts for every timestamp. -/
theorem C9_counterexample :
    ((col.time 0).run FmtState.init severity_t.error).1 = "         0.000000" ∧
    ("         0.000000" : String).toList.head? = Option.some ' ' ∧
    Char.isDigit ' ' = false ∧
    ((col.time 0).run FmtState.init severity_t.error).1 ≠
      "0000000000.000000" :=
  ⟨by decide, by decide, by decide, by decide⟩

/-- C9 amended: on a fresh buffer the time column emits the seconds
right-aligned in width 10 padded with the stream's current fill — a space, so
the field is all digits only when the seconds value already has 10 digits
(as every timestamp between 2001 and 2286 does) — then `'.'`, then the
microseconds zero-padded to exactly 6 digits; the severity column emits a
fixed 5-character label (five blanks for `none`); and a default-column
`error` line is exactly `<time> ERROR <content>` with single separator
spaces. -/
theorem C9_time_severity (usec : Nat) (st : FmtState) (sev : severity_t)
    (c : String) (h1 : 10 ^ 9 ≤ usec / 1000000)
    (h2 : usec / 1000000 < 10 ^ 10) :
    (((col.time usec).run FmtState.init sev).1 =
        decRepr (usec / 1000000) ++ "." ++
          padLeft '0' 6 (decRepr (usec % 1000000)) ∧
      (decRepr (usec / 1000000)).length = 10 ∧
      (∀ ch ∈ (decRepr (usec / 1000000)).toList, ch.isDigit = true) ∧
      (padLeft '0' 6 (decRepr (usec % 1000000))).length = 6 ∧
      (∀ ch ∈ (padLeft '0' 6 (decRepr (usec % 1000000))).toList,
        ch.isDigit = true)) ∧
    (col.severity.run st sev).1 = severity_string sev ∧
    (severity_string sev).length = 5 ∧
    severity_string severity_t.none = "     " ∧
    ((Logger.init severity_t.error usec).insert c).1.buffer_ =
      ((col.time usec).run FmtState.init severity_t.error).1 ++ " " ++
        "ERROR" ++ " " ++ c := by
  have hsec : (decRepr (usec / 1000000)).length = 10 :=
    decRepr_length_eq h1 h2
  have hmic : (decRepr (usec % 1000000)).length ≤ 6 :=
    decRepr_length_le (Nat.mod_lt _ (by omega)) (by omega)
  refine ⟨⟨?_, hsec, decRepr_all_digit _, ?_, ?_⟩, rfl, ?_, rfl, ?_⟩
  · show padLeft FmtState.init.fill 10 (decRepr (usec / 1000000)) ++ "." ++
      padLeft '0' 6 (decRepr (usec % 1000000)) = _
    rw [padLeft_eq_self (by omega)]
  · rw [padLeft_length]
    omega
  · exact padLeft_all_digit (by decide) 6 (decRepr_all_digit _)
  · cases sev <;> rfl
  · rw [Logger.insert_render (by simp [Logger.init]) rfl
      (by simp [Logger.init])]
    show (Logger.init severity_t.error usec).buffer_ ++
      (renderCols severity_t.error FmtState.init.flags FmtState.init
        [col.time usec, col.severity]).1 ++ c = _
    simp only [renderCols, col.severity, Logger.init, severity_string,
      String.empty_append, String.append_empty, String.append_assoc]

/-- C9 witness: at `usec = 1.7e15` (year 2023) the seconds field is exactly
10 digits and the time column output has the documented shape. -/
theorem C9_time_severity_witness :
    ((col.time 1700000000000000).run FmtState.init severity_t.error).1 =
      decRepr (1700000000000000 / 1000000) ++ "." ++
        padLeft '0' 6 (decRepr (1700000000000000 % 1000000)) ∧
    (decRepr (1700000000000000 / 1000000)).length = 10 := by
  have h := C9_time_severity 1700000000000000 FmtState.init severity_t.error ""
    (by norm_num) (by norm_num)
  exact ⟨h.1.1, h.1.2.1⟩

/-! ### Lemmas for the concurrent-finalize model -/

theorem wrEvents_thread (t : Nat) (task : FlushTask) :
    ∀ e ∈ wrEvents t task, ∃ s c, e = Ev.wr t s c := by
  intro e he
  simp only [wrEvents, List.mem_flatten, List.mem_map] at he
  obtain ⟨l, ⟨s, _, rfl⟩, he⟩ := he
  obtain ⟨c, _, rfl⟩ := List.mem_map.mp he
  exact ⟨s, c, rfl⟩

theorem wrEvents_thread_eq (t : Nat) (task : FlushTask) :
    ∀ e ∈ wrEvents t task, evThread e = t := by
  intro e he
  obtain ⟨s, c, rfl⟩ := wrEvents_thread t task e he
  rfl

theorem proj_cons_self (i : Nat) (e : Ev) (tr : List Ev) (h : evThread e = i) :
    proj i (e :: tr) = e :: proj i tr := by
  simp [proj, List.filter_cons, h]

theorem proj_cons_ne (i : Nat) (e : Ev) (tr : List Ev) (h : evThread e ≠ i) :
    proj i (e :: tr) = proj i tr := by
  simp [proj, List.filter_cons, h]

theorem proj_append (i : Nat) (u v : List Ev) :
    proj i (u ++ v) = proj i u ++ proj i v :=
  List.filter_append _ _

theorem proj_nil (i : Nat) : proj i [] = [] := rfl

theorem proj_eq_nil_of_thread (i : Nat) (l : List Ev)
    (h : ∀ e ∈ l, evThread e ≠ i) : proj i l = [] := by
  rw [proj, List.filter_eq_nil_iff]
  intro e he
  simpa using h e he

/-- While thread `t` holds the lock, the trace is forced to replay exactly
`t`'s pending write events followed by its release, after which the lock is
free and `t` is silent. -/
theorem lock_block (t : Nat) (u : List Ev) :
    ∀ pend : List Ev,
    (∀ e ∈ pend, ∃ s c, e = Ev.wr t s c) →
    lockRun (Option.some t) u = Option.some Option.none →
    proj t u = pend ++ [Ev.rel t] →
    ∃ u', u = pend ++ Ev.rel t :: u' ∧
      lockRun Option.none u' = Option.some Option.none ∧ proj t u' = [] := by
  induction u with
  | nil =>
    intro pend _ hlock _
    simp [lockRun] at hlock
  | cons e u ih =>
    intro pend hpend hlock hproj
    cases e with
    | acq j =>
      simp [lockRun] at hlock
    | wr j s c =>
      by_cases hj : t = j
      · subst hj
        rw [lockRun, if_pos rfl] at hlock
        rw [proj_cons_self t (Ev.wr t s c) u rfl] at hproj
        cases pend with
        | nil => simp at hproj
        | cons p pend =>
          rw [List.cons_append] at hproj
          injection hproj with h1 h2
          obtain ⟨u', hu, hl, hp⟩ :=
            ih pend (fun e he => hpend e (List.mem_cons_of_mem _ he)) hlock h2
          subst h1
          exact ⟨u', by simp [hu], hl, hp⟩
      · rw [lockRun, if_neg (by simpa using hj)] at hlock
        cases hlock
    | rel j =>
      by_cases hj : t = j
      · subst hj
        rw [lockRun, if_pos rfl] at hlock
        rw [proj_cons_self t (Ev.rel t) u rfl] at hproj
        cases pend with
        | nil =>
          simp only [List.nil_append, List.cons.injEq] at hproj
          exact ⟨u, rfl, hlock, hproj.2⟩
        | cons p pend =>
          rw [List.cons_append] at hproj
          injection hproj with h1 _
          obtain ⟨s, c, hp⟩ := hpend p (List.mem_cons_self _ _)
          rw [hp] at h1
          cases h1
      · rw [lockRun, if_neg (by simpa using hj)] at hlock
        cases hlock

/-- Any complete lock-disciplined trace decomposes into the contiguous
whole-flush blocks of the participating threads, in lock-acquisition
order. -/
theorem trace_decompose_aux (tasks : List FlushTask) (n : Nat) :
    ∀ tr : List Ev, tr.length ≤ n →
    lockRun Option.none tr = Option.some Option.none →
    (∀ i, proj i tr = [] ∨
      proj i tr = taskEvents i (tasks.getD i ⟨"", []⟩)) →
    ∃ perm : List Nat, perm.Nodup ∧
      (∀ i, i ∈ perm ↔ proj i tr ≠ []) ∧
      tr = (perm.map fun i => taskEvents i (tasks.getD i ⟨"", []⟩)).flatten := by
  induction n with
  | zero =>
    intro tr hlen _ _
    have htr : tr = [] := List.eq_nil_of_length_eq_zero (by omega)
    subst htr
    exact ⟨[], List.nodup_nil, fun i => by simp [proj_nil], rfl⟩
  | succ n ih =>
    intro tr hlen hlock hproj
    cases tr with
    | nil =>
      exact ⟨[], List.nodup_nil, fun i => by simp [proj_nil], rfl⟩
    | cons e tr' =>
      cases e with
      | wr j s c => simp [lockRun] at hlock
      | rel j => simp [lockRun] at hlock
      | acq t =>
        rw [show lockRun Option.none (Ev.acq t :: tr') =
          lockRun (Option.some t) tr' from rfl] at hlock
        have hpt := hproj t
        rw [proj_cons_self t (Ev.acq t) tr' rfl] at hpt
        rcases hpt with hpt | hpt
        · exact absurd hpt (by simp)
        rw [taskEvents] at hpt
        injection hpt with _ hpt2
        obtain ⟨u', hu, hl, hp0⟩ :=
          lock_block t tr' (wrEvents t (tasks.getD t ⟨"", []⟩))
            (wrEvents_thread t _) hlock hpt2
        have hlen2 : tr'.length =
            (wrEvents t (tasks.getD t ⟨"", []⟩)).length + (u'.length + 1) := by
          rw [hu]
          simp [List.length_append]
        have hchain : ∀ i, i ≠ t → proj i (Ev.acq t :: tr') = proj i u' := by
          intro i hit
          have hblock : proj i (wrEvents t (tasks.getD t ⟨"", []⟩)) = [] := by
            apply proj_eq_nil_of_thread
            intro e he hei
            have ht := wrEvents_thread_eq t _ e he
            rw [hei] at ht
            exact hit ht
          rw [proj_cons_ne i (Ev.acq t) tr' (fun hei => hit hei.symm),
            hu, proj_append, hblock, List.nil_append,
            proj_cons_ne i (Ev.rel t) u' (fun hei => hit hei.symm)]
        have hproj' : ∀ i, proj i u' = [] ∨
            proj i u' = taskEvents i (tasks.getD i ⟨"", []⟩) := by
          intro i
          by_cases hit : i = t
          · subst hit
            exact Or.inl hp0
          · rw [← hchain i hit]
            exact hproj i
        have hlen' : u'.length ≤ n := by
          simp only [List.length_cons] at hlen
          omega
        obtain ⟨perm, hnd, hmem, hflat⟩ := ih u' hlen' hl hproj'
        refine ⟨t :: perm, ?_, ?_, ?_⟩
        · rw [List.nodup_cons]
          refine ⟨fun hmemt => ?_, hnd⟩
          exact absurd hp0 ((hmem t).mp hmemt)
        · intro i
          by_cases hit : i = t
          · subst hit
            constructor
            · intro _
              rw [proj_cons_self i (Ev.acq i) tr' rfl]
              simp
            · intro _
              exact List.mem_cons_self _ _
          · rw [List.mem_cons]
            rw [hchain i hit]
            constructor
            · rintro (rfl | hm)
              · exact absurd rfl hit
              · exact (hmem i).mp hm
            · intro hne
              exact Or.inr ((hmem i).mpr hne)
        · simp only [List.map_cons, List.flatten_cons]
          rw [taskEvents, hu, hflat]
          simp [List.append_assoc]

theorem sinkOut_append (s : Nat) (u v : List Ev) :
    sinkOut s (u ++ v) = sinkOut s u ++ sinkOut s v :=
  List.filterMap_append _ _ _

theorem sinkOut_flatten (s : Nat) (L : List (List Ev)) :
    sinkOut s L.flatten = (L.map (sinkOut s)).flatten := by
  induction L with
  | nil => rfl
  | cons u L ih => simp [sinkOut_append, ih]

theorem sinkOut_wr_line (s t a : Nat) (cs : List Char) :
    sinkOut s (cs.map fun c => Ev.wr t a c) = if a = s then cs else [] := by
  induction cs with
  | nil => simp [sinkOut]
  | cons c cs ih =>
    by_cases ha : a = s
    · simp only [List.map_cons, sinkOut, List.filterMap_cons, if_pos ha, ha]
      simp [sinkOut, ha] at ih
      simp [ih]
    · simp only [List.map_cons, sinkOut, List.filterMap_cons, if_neg ha]
      simp [sinkOut, ha] at ih
      simp [ih, ha]

theorem sinkOut_wrs (s t : Nat) (line : String) (sinks : List Nat) :
    sinkOut s
      ((sinks.map fun x => line.toList.map fun c => Ev.wr t x c).flatten) =
      ((sinks.filter fun x => x == s).map fun _ => line.toList).flatten := by
  induction sinks with
  | nil => rfl
  | cons a sinks ih =>
    simp only [List.map_cons, List.flatten_cons, sinkOut_append,
      List.filter_cons]
    by_cases ha : a = s
    · subst ha
      simp only [beq_self_eq_true, if_pos, List.map_cons, List.flatten_cons,
        sinkOut_wr_line, if_pos rfl, ih]
    · have hbeq : (a == s) = false := by simpa using ha
      simp only [hbeq, Bool.false_eq_true, if_false, sinkOut_wr_line,
        if_neg ha, List.nil_append, ih]

theorem sinkOut_taskEvents (s t : Nat) (task : FlushTask) :
    sinkOut s (taskEvents t task) = contrib task s := by
  have h1 : sinkOut s (taskEvents t task) = sinkOut s (wrEvents t task) := by
    simp [taskEvents, sinkOut, List.filterMap_cons, List.filterMap_append]
  rw [h1, wrEvents, contrib]
  exact sinkOut_wrs s t task.line task.sinks

/-- C4: for any number of concurrently finalizing sessions, any complete
execution respecting the process-wide mutex (which every flush holds across
its whole multi-sink write) produces on every sink exactly the participating
lines, whole and contiguous, concatenated in a single lock-acquisition order
common to all sinks — no interleaved, dropped or merged lines — and the
byte count per sink is the sum of the individual contributions. -/
theorem C4_concurrent_flush (tasks : List FlushTask) (tr : List Ev)
    (h : ValidTrace tasks tr) :
    ∃ perm : List Nat, perm.Perm (List.range tasks.length) ∧
      ∀ s : Nat,
        sinkOut s tr =
          (perm.map fun i => contrib (tasks.getD i ⟨"", []⟩) s).flatten ∧
        (sinkOut s tr).length =
          ((List.range tasks.length).map fun i =>
            (contrib (tasks.getD i ⟨"", []⟩) s).length).sum := by
  obtain ⟨hlock, hthread, hproj⟩ := h
  have hproj' : ∀ i, proj i tr = [] ∨
      proj i tr = taskEvents i (tasks.getD i ⟨"", []⟩) := by
    intro i
    by_cases hi : i < tasks.length
    · exact Or.inr (hproj i (List.mem_range.mpr hi))
    · left
      apply proj_eq_nil_of_thread
      intro e he hei
      exact hi (hei ▸ hthread e he)
  obtain ⟨perm, hnd, hmem, hflat⟩ :=
    trace_decompose_aux tasks tr.length tr le_rfl hlock hproj'
  have hpr : perm.Perm (List.range tasks.length) := by
    rw [List.perm_ext_iff_of_nodup hnd (List.nodup_range _)]
    intro a
    rw [hmem a, List.mem_range]
    constructor
    · intro hne
      by_contra hge
      exact hne (proj_eq_nil_of_thread _ _ fun e he hei =>
        hge (hei ▸ hthread e he))
    · intro hlt
      rw [hproj a (List.mem_range.mpr hlt)]
      simp [taskEvents]
  have hout : ∀ s, sinkOut s tr =
      (perm.map fun i => contrib (tasks.getD i ⟨"", []⟩) s).flatten := by
    intro s
    rw [hflat, sinkOut_flatten, List.map_map]
    congr 1
    exact List.map_congr_left fun i _ => sinkOut_taskEvents s i _
  refine ⟨perm, hpr, fun s => ⟨hout s, ?_⟩⟩
  rw [hout s, List.length_flatten, List.map_map]
  have hmp := hpr.map fun i => (contrib (tasks.getD i ⟨"", []⟩) s).length
  have hsum := hmp.sum_eq
  simpa [Function.comp] using hsum

/-- C4 witness: two threads, thread `0` flushing `"a\n"` to sink `0` and
thread `1` flushing `"b\n"` to sinks `0` and `1`, in the serialized trace
where thread `0` acquires first. -/
theorem C4_concurrent_flush_witness :
    ∃ perm : List Nat, perm.Perm (List.range 2) ∧
      ∀ s : Nat,
        sinkOut s
          (taskEvents 0 ⟨"a\n", [0]⟩ ++ taskEvents 1 ⟨"b\n", [0, 1]⟩) =
          (perm.map fun i =>
            contrib ([(⟨"a\n", [0]⟩ : FlushTask),
              ⟨"b\n", [0, 1]⟩].getD i ⟨"", []⟩) s).flatten ∧
        (sinkOut s
          (taskEvents 0 ⟨"a\n", [0]⟩ ++ taskEvents 1 ⟨"b\n", [0, 1]⟩)).length =
          ((List.range 2).map fun i =>
            (contrib ([(⟨"a\n", [0]⟩ : FlushTask),
              ⟨"b\n", [0, 1]⟩].getD i ⟨"", []⟩) s).length).sum := by
  have h := C4_concurrent_flush [⟨"a\n", [0]⟩, ⟨"b\n", [0, 1]⟩]
    (taskEvents 0 ⟨"a\n", [0]⟩ ++ taskEvents 1 ⟨"b\n", [0, 1]⟩)
    ⟨by decide, by decide, by decide⟩
  simpa using h

/-- C10 witness: sink `3` listed twice receives the finished line twice. -/
theorem C10_duplicate_sinks_witness :
    (Logger.mk severity_t.error "hi" FmtState.init [3, 3] []).finalize.length = 2 ∧
    sinkTotal
      (Logger.mk severity_t.error "hi" FmtState.init [3, 3] []).finalize 3 =
      "hi\nhi\n" := by
  have h :=
    (C10_duplicate_sinks []
      (Logger.mk severity_t.error "hi" FmtState.init [3, 3] []) 3).2.2
      (by decide) (by decide)
  exact ⟨h.1, h.2.trans (by decide)⟩

end cxxlog
